import Mathlib

/-!
Verification of `buildLineMap` and `editorForId` from
`src/markdown-preview-view/util.ts` of markdown-preview-plus.

The DOM tree handed to `buildLineMap` (after `DOMParser.parseFromString`) is
embedded as an element-only tree `Elem`: text nodes are invisible to every
operation the source uses (`querySelectorAll`, `previousElementSibling`,
`parentElement`), so they are omitted. Elements are addressed by their child
index position from the document element, which models the DOM's
parent/sibling pointers. JS numbers produced by `parseInt(x, 10)` are either
integers or `NaN`; together with `undefined` from array destructuring they are
modelled as `Option Int`, where `none` makes every `<` comparison false,
exactly as NaN/undefined do in JS.
-/

set_option maxHeartbeats 1000000

namespace MPP

/-- One step of a structural path: the `{ tag, index }` records the source
pushes with `path.unshift({ tag: e.tagName.toLowerCase(), index })`. -/
structure Step where
  tag : String
  index : Nat
deriving DecidableEq, Repr

mutual
/-- A DOM element: tag name (as `tagName` returns it), the value of the
`data-source-lines` attribute when present, and the element children. -/
inductive Elem : Type where
  | mk : String → Option String → ElemList → Elem

/-- The list of element children of an element. -/
inductive ElemList : Type where
  | nil : ElemList
  | cons : Elem → ElemList → ElemList
end

/-- Tag name of an element (`e.tagName`). -/
def Elem.tag : Elem → String
  | .mk t _ _ => t

/-- Value of the `data-source-lines` attribute (`he.dataset.sourceLines`). -/
def Elem.attr : Elem → Option String
  | .mk _ a _ => a

/-- Element children of an element. -/
def Elem.children : Elem → ElemList
  | .mk _ _ c => c

/-- Build an `ElemList` from a `List Elem` (for writing concrete trees). -/
def listToElems : List Elem → ElemList
  | [] => .nil
  | c :: cs => .cons c (listToElems cs)

/-- Convenience constructor for concrete example trees. -/
def el (tag : String) (attr : Option String) (cs : List Elem) : Elem :=
  .mk tag attr (listToElems cs)

/-- The `k`-th element child (models following `children[k]` /
the k-fold `previousElementSibling` chain from the end). -/
def getChild : ElemList → Nat → Option Elem
  | .nil, _ => none
  | .cons c _, 0 => some c
  | .cons _ cs, n + 1 => getChild cs n

/-- Node lookup by child-index position from the document element; models the
parent pointers: `nodeAt t pos.dropLast` is the `parentElement` of
`nodeAt t pos`. -/
def nodeAt : Elem → List Nat → Option Elem
  | e, [] => some e
  | e, k :: p =>
    match getChild e.children k with
    | some c => nodeAt c p
    | none => none

/-- Number of preceding siblings with the given tag name among the first `k`
children: the inner `while (sib.previousElementSibling) { ... if
(sib.tagName === e.tagName) index++ }` loop of the source. -/
def countTagBefore : ElemList → Nat → String → Nat
  | .nil, _, _ => 0
  | .cons _ _, 0, _ => 0
  | .cons c cs, k + 1, tg => (if c.tag = tg then 1 else 0) + countTagBefore cs k tg

/-- ASCII lower-case letter test (`a`–`z`). -/
def isLowAZ (c : Char) : Bool := decide (97 ≤ c.toNat) && decide (c.toNat ≤ 122)

/-- ASCII upper-case letter test (`A`–`Z`). -/
def isUpAZ (c : Char) : Bool := decide (65 ≤ c.toNat) && decide (c.toNat ≤ 90)

/-- Model of JS `String.prototype.toLowerCase` on a character: ASCII
upper-case letters map to lower case, everything else is unchanged (HTML tag
names only contain ASCII). -/
def jsLowerChar (c : Char) : Char :=
  if h : 65 ≤ c.toNat ∧ c.toNat ≤ 90 then
    ⟨⟨BitVec.ofNatLt (c.toNat + 32) (by omega)⟩, Or.inl (show c.toNat + 32 < 55296 by omega)⟩
  else c

/-- Model of JS `toLowerCase` on a string. -/
def jsLowerStr (s : String) : String := ⟨s.data.map jsLowerChar⟩

/-- The upward walk of the source (`while (e && e.tagName !== 'BODY')`),
expressed on the reversed position: the head of `rpos` is the current
element's index in its parent. Each iteration prepends
`{ tag: e.tagName.toLowerCase(), index }` and moves to the parent; the walk
stops at a `BODY` element or at the document element's null parent. -/
def pathWalkRev (t : Elem) : List Nat → List Step → List Step
  | [], acc =>
    if t.tag = "BODY" then acc else ⟨jsLowerStr t.tag, 0⟩ :: acc
  | k :: rest, acc =>
    match nodeAt t rest.reverse with
    | none => acc
    | some par =>
      match getChild par.children k with
      | none => acc
      | some e =>
        if e.tag = "BODY" then acc
        else pathWalkRev t rest (⟨jsLowerStr e.tag, countTagBefore par.children k e.tag⟩ :: acc)

/-- Structural path of the element at `pos` (lines 154–165 of the source). -/
def buildPathOf (t : Elem) (pos : List Nat) : List Step :=
  pathWalkRev t pos.reverse []

/-- JS `s.split(' ')` helper on the character list with an accumulator. -/
def splitSpAux : List Char → List Char → List String
  | [], acc => [String.mk acc.reverse]
  | c :: rest, acc =>
    if c = ' ' then String.mk acc.reverse :: splitSpAux rest []
    else splitSpAux rest (c :: acc)

/-- Model of JS `s.split(' ')`. -/
def splitSp (s : String) : List String := splitSpAux s.data []

/-- Longest prefix of decimal digits. -/
def leadDigits (cs : List Char) : List Char := cs.takeWhile Char.isDigit

/-- Numeric value of a digit string. -/
def digitsToNat (ds : List Char) : Nat :=
  ds.foldl (fun a c => a * 10 + (c.toNat - 48)) 0

/-- Model of JS `parseInt(x, 10)`: skip leading whitespace, optional sign,
longest prefix of decimal digits; `none` models `NaN` (no digits). -/
def parseIntM (s : String) : Option Int :=
  let cs := s.data.dropWhile (fun c => c = ' ' ∨ c = '\t' ∨ c = '\n' ∨ c = '\r')
  match cs with
  | '-' :: rest =>
    let ds := leadDigits rest
    if ds = [] then none else some (-(digitsToNat ds : Int))
  | '+' :: rest =>
    let ds := leadDigits rest
    if ds = [] then none else some ((digitsToNat ds : Int))
  | _ =>
    let ds := leadDigits cs
    if ds = [] then none else some ((digitsToNat ds : Int))

/-- The destructuring `const [start, end] = he.dataset.sourceLines!.split('
').map((x) => parseInt(x, 10))`: first and second parsed token, `none`
standing for NaN or for `undefined` when the token is missing. -/
def parsedRange (s : String) : Option Int × Option Int :=
  let parts := (splitSp s).map parseIntM
  (parts.getD 0 none, parts.getD 1 none)

/-- The overwrite test `!map[i] || map[i].length < path.length`. -/
def replaceCond (cur : Option (List Step)) (p : List Step) : Bool :=
  match cur with
  | none => true
  | some q => decide (q.length < p.length)

/-- Processing of one annotated element (the body of the `for (const elem
of ...)` loop): parse the range, build the path, and update the map at every
line of `[start, end)`. When either bound is NaN/undefined the JS loop guard
`i < end` is never true and the map is unchanged. -/
def stepElem (t : Elem) (m : Int → Option (List Step)) (en : List Nat × String) :
    Int → Option (List Step) :=
  match parsedRange en.2 with
  | (some lo, some hi) =>
    let path := buildPathOf t en.1
    fun i =>
      if (decide (lo ≤ i) && decide (i < hi) && replaceCond (m i) path) = true
      then some path else m i
  | _ => m

/-- All elements carrying `data-source-lines`, in document (pre-)order, with
their positions and raw attribute values: `dom.querySelectorAll('[data-source-lines]')`. -/
def annotList : List Nat → Nat → ElemList → List (List Nat × String)
  | _, _, .nil => []
  | pos, k, .cons (.mk _ a cs) rest =>
    (match a with | some s => [(pos ++ [k], s)] | none => []) ++
    annotList (pos ++ [k]) 0 cs ++ annotList pos (k + 1) rest

/-- Annotated elements of the whole document, in document order. -/
def annotated (t : Elem) : List (List Nat × String) :=
  (match t.attr with | some s => [([], s)] | none => []) ++ annotList [] 0 t.children

/-- The line map built by `buildLineMap` (lines 144–171 of the source),
as a function from line number to the stored path. -/
def buildLineMap (t : Elem) : Int → Option (List Step) :=
  (annotated t).foldl (stepElem t) (fun _ => none)

/-- Whether the parsed range of attribute value `s` covers line `i`: both
bounds parse and `start <= i < end`. -/
def coversB (s : String) (i : Int) : Bool :=
  match parsedRange s with
  | (some lo, some hi) => decide (lo ≤ i) && decide (i < hi)
  | _ => false

/-- Paths of the annotated elements whose range covers line `i`, in document
order ("the candidates for line `i`"). -/
def candPaths (t : Elem) (i : Int) : List (List Step) :=
  ((annotated t).filter (fun en => coversB en.2 i)).map (fun en => buildPathOf t en.1)

/-- The per-line accumulation of the source's overwrite rule over a list of
candidate paths. -/
def bestAux : Option (List Step) → List (List Step) → Option (List Step)
  | cur, [] => cur
  | cur, p :: ps => bestAux (if replaceCond cur p = true then some p else cur) ps

/-- Largest path length in a list of candidate paths. -/
def maxLen : List (List Step) → Nat
  | [] => 0
  | p :: ps => max p.length (maxLen ps)

/-- Model of JS `toUpperCase` on a character (used only to invert
`jsLowerChar` in proofs). -/
def jsUpperChar (c : Char) : Char :=
  if h : 97 ≤ c.toNat ∧ c.toNat ≤ 122 then
    ⟨⟨BitVec.ofNatLt (c.toNat - 32) (by omega)⟩, Or.inl (show c.toNat - 32 < 55296 by omega)⟩
  else c

/-- Model of JS `toUpperCase` on a string. -/
def jsUpperStr (s : String) : String := ⟨s.data.map jsUpperChar⟩

/-- A string with no lower-case ASCII letter (the shape of `tagName` values
the HTML DOM produces). -/
def noLowAZ (s : String) : Bool := s.data.all (fun c => !isLowAZ c)

/-- A string with no upper-case ASCII letter ("lower-case" output shape). -/
def noUpAZ (s : String) : Bool := s.data.all (fun c => !isUpAZ c)

/-- All tag names in the child list are free of lower-case ASCII letters. -/
def tagsUpperList : ElemList → Bool
  | .nil => true
  | .cons (.mk tg _ cs) rest => noLowAZ tg && tagsUpperList cs && tagsUpperList rest

/-- All tag names in the tree are free of lower-case ASCII letters: the DOM
invariant that `tagName` of an HTML element is upper-case. -/
def tagsUpper (t : Elem) : Bool := noLowAZ t.tag && tagsUpperList t.children

/-- No element of the child list carries `data-source-lines`. -/
def attrFreeList : ElemList → Bool
  | .nil => true
  | .cons (.mk _ a cs) rest => a.isNone && attrFreeList cs && attrFreeList rest

/-- No element of the tree carries `data-source-lines`. -/
def attrFree (t : Elem) : Bool := t.attr.isNone && attrFreeList t.children

/-- A path step is normalized: no upper-case ASCII in the tag and the tag is
not `body`. -/
def stepOK (st : Step) : Bool := noUpAZ st.tag && !(st.tag == "body")

/-- Decidable soundness check for one line: if the map has an entry at `i`,
some annotated element covers `i` and the entry is its path. -/
def soundAt (t : Elem) (i : Int) : Bool :=
  match buildLineMap t i with
  | none => true
  | some p => (annotated t).any (fun en => coversB en.2 i && (buildPathOf t en.1 == p))

/-- Example document `html > body > div > p > span`, each of the three inner
elements annotated with range `[0, 3)`. -/
def exSPAN : Elem := el "SPAN" (some "0 3") []

/-- See `exSPAN`. -/
def exP : Elem := el "P" (some "0 3") [exSPAN]

/-- See `exSPAN`. -/
def exDIV : Elem := el "DIV" (some "0 3") [exP]

/-- See `exSPAN`. -/
def exTree1 : Elem := el "HTML" none [el "BODY" none [exDIV]]

/-- Example document with two sibling `p` elements of equal depth covering
line 2, and a deeper `span` inside the first also covering line 2. -/
def exTree2 : Elem :=
  el "HTML" none [el "BODY" none [el "DIV" none
    [el "P" (some "0 3") [el "SPAN" (some "0 3") []], el "P" (some "2 5") []]]]

/-- Example document whose only annotated element has a malformed
(non-numeric, single-token) `data-source-lines` value. -/
def exMalformed : Elem := el "HTML" none [el "BODY" none [el "DIV" (some "abc") []]]

/-- Example document with no `data-source-lines` attribute anywhere. -/
def exPlain : Elem := el "HTML" none [el "BODY" none [el "DIV" none [el "P" none []]]]

/-- A workspace text editor: the numeric id plus unrelated payload. -/
structure TextEditor where
  id : Int
  title : String
deriving DecidableEq

/-- The linear scan of `editorForId` (lines 6–13 of the source): first editor
whose `id` strictly equals `editorId`, else `undefined`. -/
def editorForId (editors : List TextEditor) (editorId : Int) : Option TextEditor :=
  match editors with
  | [] => none
  | e :: rest => if e.id = editorId then some e else editorForId rest editorId

/-- A concrete workspace for witnesses. -/
def exEditors : List TextEditor := [⟨1, "a.md"⟩, ⟨2, "b.md"⟩]

theorem stepElem_apply (t : Elem) (m : Int → Option (List Step))
    (en : List Nat × String) (i : Int) :
    stepElem t m en i =
      if coversB en.2 i = true then
        (if replaceCond (m i) (buildPathOf t en.1) = true
         then some (buildPathOf t en.1) else m i)
      else m i := by
  unfold stepElem coversB
  rcases h : parsedRange en.2 with ⟨lo?, hi?⟩
  rcases lo? with _ | lo <;> rcases hi? with _ | hi <;> simp
  cases hlo : decide (lo ≤ i) <;> cases hhi : decide (i < hi) <;>
    cases hrc : replaceCond (m i) (buildPathOf t en.1) <;>
      simp [hlo, hhi, hrc]

theorem foldl_stepElem (t : Elem) (L : List (List Nat × String))
    (m : Int → Option (List Step)) (i : Int) :
    (L.foldl (stepElem t) m) i =
      bestAux (m i)
        ((L.filter (fun en => coversB en.2 i)).map (fun en => buildPathOf t en.1)) := by
  induction L generalizing m with
  | nil => rfl
  | cons e L ih =>
    rw [List.foldl_cons, ih, stepElem_apply]
    by_cases hc : coversB e.2 i = true
    · simp [hc, List.filter_cons, bestAux]
    · simp [hc, List.filter_cons]

theorem buildLineMap_eq (t : Elem) (i : Int) :
    buildLineMap t i = bestAux none (candPaths t i) :=
  foldl_stepElem t (annotated t) (fun _ => none) i

theorem bestAux_mem :
    ∀ (cs : List (List Step)) (cur : Option (List Step)) (p : List Step),
      bestAux cur cs = some p → p ∈ cs ∨ cur = some p := by
  intro cs
  induction cs with
  | nil => intro cur p h; exact Or.inr h
  | cons r rs ih =>
    intro cur p h
    simp only [bestAux] at h
    rcases ih _ p h with h1 | h1
    · exact Or.inl (List.mem_cons_of_mem _ h1)
    · by_cases hrc : replaceCond cur r = true
      · rw [if_pos hrc] at h1
        cases h1
        exact Or.inl (List.mem_cons_self _ _)
      · rw [if_neg hrc] at h1
        exact Or.inr h1

theorem bestAux_cur_le :
    ∀ (cs : List (List Step)) (c p : List Step),
      bestAux (some c) cs = some p → c.length ≤ p.length := by
  intro cs
  induction cs with
  | nil => intro c p h; cases h; exact Nat.le_refl _
  | cons r rs ih =>
    intro c p h
    simp only [bestAux] at h
    by_cases hrc : replaceCond (some c) r = true
    · rw [if_pos hrc] at h
      have h1 := ih r p h
      have h2 : c.length < r.length := by simpa [replaceCond] using hrc
      omega
    · rw [if_neg hrc] at h
      exact ih c p h

theorem bestAux_le :
    ∀ (cs : List (List Step)) (cur : Option (List Step)) (p : List Step),
      bestAux cur cs = some p → ∀ q ∈ cs, q.length ≤ p.length := by
  intro cs
  induction cs with
  | nil => intro cur p _ q hq; cases hq
  | cons r rs ih =>
    intro cur p h q hq
    simp only [bestAux] at h
    rcases List.mem_cons.1 hq with rfl | hq'
    · by_cases hrc : replaceCond cur q = true
      · rw [if_pos hrc] at h
        exact bestAux_cur_le rs q p h
      · rw [if_neg hrc] at h
        rcases cur with _ | c
        · simp [replaceCond] at hrc
        · have hcl : ¬ c.length < q.length := by simpa [replaceCond] using hrc
          have h1 := bestAux_cur_le rs c p h
          omega
    · exact ih _ p h q hq'

theorem bestAux_total :
    ∀ (cs : List (List Step)) (c : List Step), ∃ p, bestAux (some c) cs = some p := by
  intro cs
  induction cs with
  | nil => intro c; exact ⟨c, rfl⟩
  | cons r rs ih =>
    intro c
    simp only [bestAux]
    by_cases hrc : replaceCond (some c) r = true
    · rw [if_pos hrc]; exact ih r
    · rw [if_neg hrc]; exact ih c

theorem bestAux_first :
    ∀ (cs : List (List Step)) (c : List Step),
      bestAux (some c) cs =
        if maxLen cs ≤ c.length then some c
        else cs.find? (fun p => p.length == maxLen cs) := by
  intro cs
  induction cs with
  | nil => intro c; simp [bestAux, maxLen]
  | cons r rs ih =>
    intro c
    simp only [bestAux, maxLen]
    by_cases hrc : replaceCond (some c) r = true
    · rw [if_pos hrc]
      have hlt : c.length < r.length := by simpa [replaceCond] using hrc
      rw [ih r]
      by_cases h1 : maxLen rs ≤ r.length
      · rw [if_pos h1]
        have hmax : max r.length (maxLen rs) = r.length := Nat.max_eq_left h1
        rw [if_neg (by rw [hmax]; omega), hmax]
        rw [List.find?_cons_of_pos _ (by simp)]
      · rw [if_neg h1]
        have h2 : r.length < maxLen rs := by omega
        have hmax : max r.length (maxLen rs) = maxLen rs := Nat.max_eq_right (by omega)
        rw [if_neg (by rw [hmax]; omega), hmax]
        rw [List.find?_cons_of_neg _ (by simp; omega)]
    · rw [if_neg hrc]
      have hge : r.length ≤ c.length := by
        rcases Nat.lt_or_ge c.length r.length with h | h
        · exact absurd (by simpa [replaceCond] using h) hrc
        · exact h
      rw [ih c]
      by_cases h1 : maxLen rs ≤ c.length
      · rw [if_pos h1, if_pos (Nat.max_le.2 ⟨hge, h1⟩)]
      · rw [if_neg h1]
        have h2 : c.length < maxLen rs := by omega
        have hmax : max r.length (maxLen rs) = maxLen rs := Nat.max_eq_right (by omega)
        rw [if_neg (by rw [hmax]; omega), hmax]
        rw [List.find?_cons_of_neg _ (by simp; omega)]

theorem bestAux_none_find :
    ∀ (cs : List (List Step)), cs ≠ [] →
      bestAux none cs = cs.find? (fun p => p.length == maxLen cs) := by
  intro cs hcs
  rcases cs with _ | ⟨r, rs⟩
  · exact absurd rfl hcs
  · have h0 : bestAux none (r :: rs) = bestAux (some r) rs := by
      simp [bestAux, replaceCond]
    rw [h0, bestAux_first]
    by_cases h1 : maxLen rs ≤ r.length
    · rw [if_pos h1]
      have hmax : maxLen (r :: rs) = r.length := by
        simp only [maxLen]; exact Nat.max_eq_left h1
      rw [List.find?_cons_of_pos _ (by simp [hmax])]
    · rw [if_neg h1]
      have hmax : maxLen (r :: rs) = maxLen rs := by
        simp only [maxLen]; exact Nat.max_eq_right (by omega)
      rw [hmax, List.find?_cons_of_neg _ (by simp; omega)]

theorem candPaths_mem (t : Elem) (i : Int) (pos : List Nat) (s : String)
    (h : (pos, s) ∈ annotated t) (hc : coversB s i = true) :
    buildPathOf t pos ∈ candPaths t i := by
  unfold candPaths
  exact List.mem_map_of_mem _ (List.mem_filter.2 ⟨h, hc⟩)

theorem band_split {a b : Bool} (h : (a && b) = true) : a = true ∧ b = true := by
  simp only [Bool.and_eq_true] at h
  exact h

theorem char_toNat_inj (c d : Char) (h : c.toNat = d.toNat) : c = d := by
  rw [← Char.ofNat_toNat c, h, Char.ofNat_toNat]

theorem jsLowerChar_toNat_of_up (c : Char) (h : 65 ≤ c.toNat ∧ c.toNat ≤ 90) :
    (jsLowerChar c).toNat = c.toNat + 32 := by
  rw [jsLowerChar, dif_pos h]
  rfl

theorem jsLowerChar_of_not_up (c : Char) (h : ¬(65 ≤ c.toNat ∧ c.toNat ≤ 90)) :
    jsLowerChar c = c := by
  rw [jsLowerChar, dif_neg h]

theorem isUpAZ_jsLowerChar (c : Char) : isUpAZ (jsLowerChar c) = false := by
  by_cases h : 65 ≤ c.toNat ∧ c.toNat ≤ 90
  · have h1 := jsLowerChar_toNat_of_up c h
    simp only [isUpAZ, h1, Bool.and_eq_false_iff, decide_eq_false_iff_not]
    omega
  · rw [jsLowerChar_of_not_up c h]
    simp only [isUpAZ, Bool.and_eq_false_iff, decide_eq_false_iff_not]
    omega

theorem jsUpper_jsLower (c : Char) (hc : isLowAZ c = false) :
    jsUpperChar (jsLowerChar c) = c := by
  by_cases hup : 65 ≤ c.toNat ∧ c.toNat ≤ 90
  · have h1 : (jsLowerChar c).toNat = c.toNat + 32 := jsLowerChar_toNat_of_up c hup
    have h2 : 97 ≤ (jsLowerChar c).toNat ∧ (jsLowerChar c).toNat ≤ 122 := by omega
    apply char_toNat_inj
    rw [jsUpperChar, dif_pos h2]
    show (jsLowerChar c).toNat - 32 = c.toNat
    omega
  · rw [jsLowerChar_of_not_up c hup]
    have hlow : ¬(97 ≤ c.toNat ∧ c.toNat ≤ 122) := by
      simp only [isLowAZ, Bool.and_eq_false_iff, decide_eq_false_iff_not] at hc
      omega
    rw [jsUpperChar, dif_neg hlow]

theorem map_jsUpper_jsLower :
    ∀ (l : List Char), (∀ c ∈ l, isLowAZ c = false) →
      (l.map jsLowerChar).map jsUpperChar = l := by
  intro l
  induction l with
  | nil => intro _; rfl
  | cons c cl ih =>
    intro hcl
    simp only [List.map]
    rw [jsUpper_jsLower c (hcl c (List.mem_cons_self _ _)),
      ih (fun d hd => hcl d (List.mem_cons_of_mem _ hd))]

theorem jsUpperStr_jsLowerStr (s : String) (hlow : noLowAZ s = true) :
    jsUpperStr (jsLowerStr s) = s := by
  obtain ⟨l⟩ := s
  have hl : ∀ c ∈ l, isLowAZ c = false := by
    intro c hc
    have h1 := by simpa [noLowAZ, List.all_eq_true] using hlow
    simpa using h1 c hc
  show String.mk ((l.map jsLowerChar).map jsUpperChar) = String.mk l
  rw [map_jsUpper_jsLower l hl]

theorem jsLowerStr_ne_body (s : String) (hlow : noLowAZ s = true) (hne : s ≠ "BODY") :
    jsLowerStr s ≠ "body" := by
  intro h
  apply hne
  have h1 := congrArg jsUpperStr h
  rw [jsUpperStr_jsLowerStr s hlow] at h1
  rw [h1]
  decide

theorem noUpAZ_jsLowerStr (s : String) : noUpAZ (jsLowerStr s) = true := by
  simp only [noUpAZ, jsLowerStr, List.all_eq_true]
  intro c hc
  rcases List.mem_map.1 hc with ⟨d, _, rfl⟩
  simp [isUpAZ_jsLowerChar]

theorem getChild_tagsUpper :
    ∀ (k : Nat) (cs : ElemList) (c : Elem),
      tagsUpperList cs = true → getChild cs k = some c → tagsUpper c = true := by
  intro k
  induction k with
  | zero =>
    intro cs c hcs h
    rcases cs with _ | ⟨⟨tg, a, cc⟩, rest⟩
    · cases h
    · cases h
      simp only [tagsUpperList, Bool.and_eq_true] at hcs
      simp only [tagsUpper, Bool.and_eq_true]
      exact ⟨hcs.1.1, hcs.1.2⟩
  | succ k ih =>
    intro cs c hcs h
    rcases cs with _ | ⟨⟨tg, a, cc⟩, rest⟩
    · cases h
    · simp only [tagsUpperList, Bool.and_eq_true] at hcs
      exact ih rest c hcs.2 h

theorem nodeAt_tagsUpper :
    ∀ (pos : List Nat) (t e : Elem),
      tagsUpper t = true → nodeAt t pos = some e → tagsUpper e = true := by
  intro pos
  induction pos with
  | nil =>
    intro t e ht h
    cases h
    exact ht
  | cons k p ih =>
    intro t e ht h
    simp only [nodeAt] at h
    rcases h1 : getChild t.children k with _ | c
    · rw [h1] at h; cases h
    · rw [h1] at h
      have hc : tagsUpper c = true :=
        getChild_tagsUpper k t.children c (band_split ht).2 h1
      exact ih c e hc h

theorem pathWalkRev_acc (t : Elem) :
    ∀ (rpos : List Nat) (acc : List Step),
      pathWalkRev t rpos acc = pathWalkRev t rpos [] ++ acc := by
  intro rpos
  induction rpos with
  | nil =>
    intro acc
    by_cases h : t.tag = "BODY" <;> simp [pathWalkRev, h]
  | cons k rest ih =>
    intro acc
    simp only [pathWalkRev]
    rcases h1 : nodeAt t rest.reverse with _ | par
    · simp [h1]
    · simp only [h1]
      rcases h2 : getChild par.children k with _ | e
      · simp [h2]
      · simp only [h2]
        by_cases h3 : e.tag = "BODY"
        · simp [h3]
        · rw [if_neg h3, if_neg h3, ih, ih [⟨jsLowerStr e.tag, countTagBefore par.children k e.tag⟩]]
          simp

theorem pathWalkRev_stepOK (t : Elem) (ht : tagsUpper t = true) :
    ∀ (rpos : List Nat) (acc : List Step),
      acc.all stepOK = true → (pathWalkRev t rpos acc).all stepOK = true := by
  intro rpos
  induction rpos with
  | nil =>
    intro acc hacc
    simp only [pathWalkRev]
    by_cases h : t.tag = "BODY"
    · rw [if_pos h]; exact hacc
    · rw [if_neg h]
      simp only [List.all_cons, Bool.and_eq_true]
      refine ⟨?_, hacc⟩
      simp only [stepOK, Bool.and_eq_true]
      refine ⟨noUpAZ_jsLowerStr t.tag, ?_⟩
      have hne := jsLowerStr_ne_body t.tag (band_split ht).1 h
      simpa using hne
  | cons k rest ih =>
    intro acc hacc
    simp only [pathWalkRev]
    rcases h1 : nodeAt t rest.reverse with _ | par
    · simp only [h1]; exact hacc
    · simp only [h1]
      rcases h2 : getChild par.children k with _ | e
      · simp only [h2]; exact hacc
      · simp only [h2]
        by_cases h3 : e.tag = "BODY"
        · rw [if_pos h3]; exact hacc
        · rw [if_neg h3]
          apply ih
          simp only [List.all_cons, Bool.and_eq_true]
          refine ⟨?_, hacc⟩
          have hpar : tagsUpper par = true := nodeAt_tagsUpper _ t par ht h1
          have he : tagsUpper e = true :=
            getChild_tagsUpper k par.children e (band_split hpar).2 h2
          simp only [stepOK, Bool.and_eq_true]
          refine ⟨noUpAZ_jsLowerStr e.tag, ?_⟩
          have hne := jsLowerStr_ne_body e.tag (band_split he).1 h3
          simpa using hne

theorem nodeAt_append (t : Elem) :
    ∀ (pp : List Nat) (k : Nat),
      nodeAt t (pp ++ [k]) = (nodeAt t pp).bind (fun par => getChild par.children k) := by
  intro pp
  induction pp generalizing t with
  | nil =>
    intro k
    simp only [List.nil_append, nodeAt, Option.some_bind]
    rcases getChild t.children k with _ | c <;> simp [nodeAt]
  | cons j pp ih =>
    intro k
    simp only [List.cons_append, nodeAt]
    rcases h1 : getChild t.children j with _ | c
    · simp [h1]
    · simp only [h1]
      exact ih c k

theorem annotList_nil_of_attrFree (pos : List Nat) (k : Nat) (cs : ElemList)
    (h : attrFreeList cs = true) : annotList pos k cs = [] := by
  revert h
  induction pos, k, cs using annotList.induct with
  | case1 pos k =>
    intro _
    rfl
  | case2 pos k tg a cc rest ih1 ih2 =>
    intro h
    simp only [attrFreeList, Bool.and_eq_true] at h
    obtain ⟨⟨ha, hcc⟩, hrest⟩ := h
    simp only [annotList]
    rw [ih1 hcc, ih2 hrest]
    rcases a with _ | s
    · rfl
    · simp at ha

/-- C1 counterexample: in `exTree1` the elements at `[0,0]` (the `div`, path
length 1) and `[0,0,0]` (the `p`, path length 2) are both annotated and both
cover line 0, and the `p` path is strictly longer than the `div` path, yet
the map does not store the `p` path at line 0 (it stores the still deeper
`span` path), refuting the claim that the deeper element of such a pair is
the one stored. -/
theorem buildLineMap_specificity_cex :
    (([0, 0], "0 3") ∈ annotated exTree1 ∧ ([0, 0, 0], "0 3") ∈ annotated exTree1
        ∧ coversB "0 3" 0 = true
        ∧ (buildPathOf exTree1 [0, 0]).length < (buildPathOf exTree1 [0, 0, 0]).length)
      ∧ buildLineMap exTree1 0 ≠ some (buildPathOf exTree1 [0, 0, 0]) := by
  decide

/-- C1 (amended): if annotated elements at `pa` and `pb` both cover line `i`
and the path of `pb` is strictly longer, then the map has an entry at `i`, the
entry is at least as long as the path of `pb`, and it is never the path of
`pa`. -/
theorem buildLineMap_specificity_amended (t : Elem) (i : Int)
    (pa pb : List Nat) (sa sb : String)
    (ha : (pa, sa) ∈ annotated t) (hb : (pb, sb) ∈ annotated t)
    (hca : coversB sa i = true) (hcb : coversB sb i = true)
    (hlen : (buildPathOf t pa).length < (buildPathOf t pb).length) :
    (buildLineMap t i).isSome = true
      ∧ buildLineMap t i ≠ some (buildPathOf t pa)
      ∧ (buildPathOf t pb).length ≤ ((buildLineMap t i).getD []).length := by
  have hbmem : buildPathOf t pb ∈ candPaths t i := candPaths_mem t i pb sb hb hcb
  have hmap := buildLineMap_eq t i
  rcases hc : candPaths t i with _ | ⟨r, rs⟩
  · rw [hc] at hbmem; cases hbmem
  · rw [hc] at hmap
    have h0 : bestAux none (r :: rs) = bestAux (some r) rs := by
      simp [bestAux, replaceCond]
    obtain ⟨p, hp⟩ := bestAux_total rs r
    rw [h0, hp] at hmap
    have hble : (buildPathOf t pb).length ≤ p.length :=
      bestAux_le (r :: rs) none p (h0.trans hp) _ (hc ▸ hbmem)
    refine ⟨by simp [hmap], ?_, ?_⟩
    · rw [hmap]
      intro hcontra
      have heq : p = buildPathOf t pa := Option.some.inj hcontra
      have : p.length = (buildPathOf t pa).length := by rw [heq]
      omega
    · rw [hmap]
      simpa using hble

/-- C1 witness: instance of the amended theorem on `exTree1` at line 0 with
the `div` and `p` elements. -/
theorem buildLineMap_specificity_amended_wit :
    (buildLineMap exTree1 0).isSome = true
      ∧ buildLineMap exTree1 0 ≠ some (buildPathOf exTree1 [0, 0])
      ∧ (buildPathOf exTree1 [0, 0, 0]).length ≤ ((buildLineMap exTree1 0).getD []).length :=
  buildLineMap_specificity_amended exTree1 0 [0, 0] [0, 0, 0] "0 3" "0 3"
    (by decide) (by decide) (by decide) (by decide) (by decide)

/-- C2 counterexample: in `exTree2` the two sibling `p` elements (positions
`[0,0,0]` and `[0,0,1]`) have equal path depth and both cover line 2, and the
first one is first in document order, yet the map stores neither of their
paths at line 2 (it stores the deeper `span` path), refuting the claim that
the first-in-document-order element of such a pair is the one stored. -/
theorem buildLineMap_tiebreak_cex :
    (annotated exTree2 = [([0, 0, 0], "0 3"), ([0, 0, 0, 0], "0 3"), ([0, 0, 1], "2 5")]
        ∧ (buildPathOf exTree2 [0, 0, 0]).length = (buildPathOf exTree2 [0, 0, 1]).length
        ∧ coversB "0 3" 2 = true ∧ coversB "2 5" 2 = true)
      ∧ buildLineMap exTree2 2 ≠ some (buildPathOf exTree2 [0, 0, 0])
      ∧ buildLineMap exTree2 2 ≠ some (buildPathOf exTree2 [0, 0, 1]) := by
  decide

/-- C2 (amended): when two annotated elements of equal path depth cover line
`i`, the stored entry is the first path, in document order, among the
covering candidates of maximal depth — a later candidate of equal length
never overwrites an earlier one. -/
theorem buildLineMap_tiebreak_amended (t : Elem) (i : Int)
    (pa pb : List Nat) (sa sb : String)
    (ha : (pa, sa) ∈ annotated t) (hb : (pb, sb) ∈ annotated t)
    (hca : coversB sa i = true) (hcb : coversB sb i = true)
    (hlen : (buildPathOf t pa).length = (buildPathOf t pb).length) :
    buildLineMap t i =
      (candPaths t i).find? (fun p => p.length == maxLen (candPaths t i)) := by
  have hamem : buildPathOf t pa ∈ candPaths t i := candPaths_mem t i pa sa ha hca
  rw [buildLineMap_eq]
  exact bestAux_none_find _ (List.ne_nil_of_mem hamem)

/-- C2 witness: instance of the amended theorem on `exTree2` at line 2 with
the two sibling `p` elements. -/
theorem buildLineMap_tiebreak_amended_wit :
    buildLineMap exTree2 2 =
      (candPaths exTree2 2).find? (fun p => p.length == maxLen (candPaths exTree2 2)) :=
  buildLineMap_tiebreak_amended exTree2 2 [0, 0, 0] [0, 0, 1] "0 3" "2 5"
    (by decide) (by decide) (by decide) (by decide) (by decide)

/-- C3: soundness — for every tree and line, if the map has an entry at that
line then some annotated element's parsed half-open range covers the line and
the entry is that element's structural path (`soundAt` states exactly this). -/
theorem buildLineMap_sound (t : Elem) (i : Int) : soundAt t i = true := by
  unfold soundAt
  rcases h : buildLineMap t i with _ | p
  · rfl
  · rw [buildLineMap_eq] at h
    rcases bestAux_mem _ _ _ h with hmem | hmem
    · unfold candPaths at hmem
      rcases List.mem_map.1 hmem with ⟨en, henf, hpe⟩
      rcases List.mem_filter.1 henf with ⟨hen, hcov⟩
      simp only [List.any_eq_true]
      refine ⟨en, hen, ?_⟩
      rw [hcov, hpe]
      simp
    · cases hmem

/-- C4 counterexample: on `exMalformed`, whose only annotated element has the
non-numeric single-token range `"abc"`, `buildLineMap` returns normally with
the empty map — the element is silently skipped, not rejected. -/
theorem buildLineMap_malformed_cex :
    (annotated exMalformed = [([0, 0], "abc")]
        ∧ (parsedRange "abc").1 = none ∧ (parsedRange "abc").2 = none)
      ∧ buildLineMap exMalformed = (fun _ => none) :=
  ⟨⟨by decide, by decide, by decide⟩, rfl⟩

/-- C4 (amended): an element whose `data-source-lines` value is malformed
(its first or second token is missing or fails to parse) is silently skipped:
processing it leaves the map unchanged and raises no error. -/
theorem stepElem_malformed (t : Elem) (m : Int → Option (List Step))
    (pos : List Nat) (s : String)
    (h : (parsedRange s).1 = none ∨ (parsedRange s).2 = none) :
    stepElem t m (pos, s) = m := by
  funext i
  rw [stepElem_apply]
  have hcov : coversB s i = false := by
    unfold coversB
    rcases hp : parsedRange s with ⟨lo?, hi?⟩
    rw [hp] at h
    rcases lo? with _ | lo
    · rfl
    · rcases hi? with _ | hi
      · rfl
      · rcases h with h | h <;> cases h
  simp [hcov]

/-- C4 witness: instance of the amended theorem on the malformed value
`"abc"`. -/
theorem stepElem_malformed_wit :
    stepElem exMalformed (fun _ => none) ([0, 0], "abc") = (fun _ => none) :=
  stepElem_malformed exMalformed (fun _ => none) [0, 0] "abc" (Or.inl (by decide))

/-- C5: the structural path computation — a `BODY` element gets the empty
path; the document element, when not `BODY`, gets the single step of its
lower-cased tag and sibling index 0; and for any non-`BODY` element reached
through parent `par` at child index `k`, the path is the parent's path with
the step `{ tag: lower-cased tag, index: count of preceding siblings of the
same tag }` appended, so the path runs root-to-element. -/
theorem buildPathOf_spec :
    (∀ (t : Elem) (pos : List Nat) (e : Elem),
        nodeAt t pos = some e → e.tag = "BODY" → buildPathOf t pos = [])
    ∧ (∀ t : Elem, t.tag ≠ "BODY" → buildPathOf t [] = [⟨jsLowerStr t.tag, 0⟩])
    ∧ (∀ (t : Elem) (pp : List Nat) (k : Nat) (par e : Elem),
        nodeAt t pp = some par → getChild par.children k = some e → e.tag ≠ "BODY" →
        buildPathOf t (pp ++ [k]) =
          buildPathOf t pp ++ [⟨jsLowerStr e.tag, countTagBefore par.children k e.tag⟩]) := by
  refine ⟨?_, ?_, ?_⟩
  · intro t pos e hn hb
    rcases List.eq_nil_or_concat pos with rfl | ⟨pp, k, rfl⟩
    · cases hn
      simp [buildPathOf, pathWalkRev, hb]
    · rw [List.concat_eq_append] at hn ⊢
      rw [nodeAt_append] at hn
      rcases hpar : nodeAt t pp with _ | par
      · rw [hpar] at hn; cases hn
      · rw [hpar] at hn
        simp only [Option.some_bind] at hn
        unfold buildPathOf
        rw [List.reverse_append]
        simp only [List.reverse_cons, List.reverse_nil, List.nil_append, List.singleton_append]
        simp [pathWalkRev, List.reverse_reverse, hpar, hn, hb]
  · intro t hb
    simp [buildPathOf, pathWalkRev, hb]
  · intro t pp k par e hpar hch hb
    unfold buildPathOf
    rw [List.reverse_append]
    simp only [List.reverse_cons, List.reverse_nil, List.nil_append, List.singleton_append]
    simp only [pathWalkRev, List.reverse_reverse, hpar, hch]
    rw [if_neg hb, pathWalkRev_acc]

/-- C5 witness: instance of the appending clause on `exTree1`: the path of
the `p` element extends the path of its parent `div` by one lower-cased
step. -/
theorem buildPathOf_spec_wit :
    buildPathOf exTree1 ([0, 0] ++ [0]) =
      buildPathOf exTree1 [0, 0]
        ++ [⟨jsLowerStr exP.tag, countTagBefore exDIV.children 0 exP.tag⟩] :=
  buildPathOf_spec.2.2 exTree1 [0, 0] 0 exDIV exP rfl rfl (by decide)

/-- C6: an annotated element whose parsed range satisfies `start >= end`
contributes no entries: processing it leaves the map unchanged. -/
theorem stepElem_empty_range (t : Elem) (m : Int → Option (List Step))
    (pos : List Nat) (s : String) (lo hi : Int)
    (hp : parsedRange s = (some lo, some hi)) (hle : hi ≤ lo) :
    stepElem t m (pos, s) = m := by
  funext i
  rw [stepElem_apply]
  have hcov : coversB s i = false := by
    unfold coversB
    rw [hp]
    simp only [Bool.and_eq_false_iff, decide_eq_false_iff_not]
    omega
  simp [hcov]

/-- C6 witness: the range `(5, 5)` contributes nothing. -/
theorem stepElem_empty_range_wit :
    stepElem exTree1 (fun _ => none) ([0], "5 5") = (fun _ => none) :=
  stepElem_empty_range exTree1 (fun _ => none) [0] "5 5" 5 5 (by decide) (by decide)

/-- C7: a tree with no `data-source-lines` attribute anywhere yields the
empty map, with no error. -/
theorem buildLineMap_attrFree_empty (t : Elem) (h : attrFree t = true) (i : Int) :
    buildLineMap t i = none := by
  have h1 := band_split h
  have hnil : annotated t = [] := by
    unfold annotated
    rw [annotList_nil_of_attrFree [] 0 t.children h1.2]
    rcases ha : t.attr with _ | s
    · rfl
    · rw [ha] at h1
      simp [Option.isNone] at h1
  unfold buildLineMap
  rw [hnil]
  rfl

/-- C7 witness: the unannotated example document yields the empty map. -/
theorem buildLineMap_attrFree_empty_wit : buildLineMap exPlain 7 = none :=
  buildLineMap_attrFree_empty exPlain (by decide) 7

/-- C8: determinism — the map is a pure function of the input tree: two runs
on the same tree produce the same entry at every line. -/
theorem buildLineMap_deterministic (t₁ t₂ : Elem) (h : t₁ = t₂) (i : Int) :
    buildLineMap t₁ i = buildLineMap t₂ i := by
  rw [h]

/-- C8 witness: two runs on `exTree1` agree at line 0. -/
theorem buildLineMap_deterministic_wit :
    buildLineMap exTree1 0 = buildLineMap exTree1 0 :=
  buildLineMap_deterministic exTree1 exTree1 rfl 0

/-- C9: when every tag name in the tree is free of lower-case ASCII letters
(the DOM invariant for `tagName`), every step of every stored path has a
lower-cased tag (no upper-case ASCII letters) and no step's tag is `body`. -/
theorem buildLineMap_path_normalized (t : Elem) (i : Int) (p : List Step)
    (ht : tagsUpper t = true) (h : buildLineMap t i = some p) :
    p.all stepOK = true := by
  rw [buildLineMap_eq] at h
  rcases bestAux_mem _ _ _ h with hmem | hmem
  · unfold candPaths at hmem
    rcases List.mem_map.1 hmem with ⟨en, _, hpe⟩
    rw [← hpe]
    unfold buildPathOf
    exact pathWalkRev_stepOK t ht _ [] rfl
  · cases hmem

/-- C9 witness: the path stored for line 0 of `exTree1` is normalized. -/
theorem buildLineMap_path_normalized_wit :
    ([⟨"div", 0⟩, ⟨"p", 0⟩, ⟨"span", 0⟩] : List Step).all stepOK = true :=
  buildLineMap_path_normalized exTree1 0 [⟨"div", 0⟩, ⟨"p", 0⟩, ⟨"span", 0⟩]
    (by decide) (by decide)

/-- C10: `editorForId` returns an editor with the requested id whenever the
workspace contains one, and `undefined` (`none`) when no editor has that
id. -/
theorem editorForId_spec (editors : List TextEditor) (editorId : Int) :
    ((∃ e ∈ editors, e.id = editorId) →
      ∃ e, editorForId editors editorId = some e ∧ e.id = editorId)
    ∧ ((∀ e ∈ editors, e.id ≠ editorId) → editorForId editors editorId = none) := by
  induction editors with
  | nil =>
    refine ⟨?_, ?_⟩
    · rintro ⟨e, he, _⟩
      cases he
    · intro _
      rfl
  | cons a rest ih =>
    refine ⟨?_, ?_⟩
    · rintro ⟨e, he, hid⟩
      by_cases ha : a.id = editorId
      · exact ⟨a, by simp [editorForId, ha], ha⟩
      · rcases List.mem_cons.1 he with rfl | he'
        · exact absurd hid ha
        · obtain ⟨f, hf, hfid⟩ := ih.1 ⟨e, he', hid⟩
          refine ⟨f, ?_, hfid⟩
          simp [editorForId, ha, hf]
    · intro hall
      have ha : a.id ≠ editorId := hall a (List.mem_cons_self _ _)
      simp only [editorForId, if_neg ha]
      exact ih.2 (fun e he => hall e (List.mem_cons_of_mem _ he))

/-- C10 witness: in the two-editor workspace no editor has id 3, and the
lookup returns `none`. -/
theorem editorForId_spec_wit : editorForId exEditors 3 = none :=
  (editorForId_spec exEditors 3).2 (by decide)

end MPP
